import Mathlib

/-!
Shallow embedding of the expression-to-query compiler of the
azure-data-explorer-datasource repository (src/KustoExpressionParser.ts),
together with the data model from src/types.ts and editor/types.ts /
editor/expressions.ts.  Pure TypeScript functions become Lean functions on
`String` / `List`; the single mutating code path (the autocomplete tree
splice, `replaceByIndex`) is additionally modelled on an explicit heap so
that the frame property (no mutation of the caller's tree) is statable.
-/

namespace AdxCompiler

/-- Column/property types of the visual editor (editor/types.ts,
`QueryEditorPropertyType`). -/
inductive QueryEditorPropertyType where
  | number
  | string
  | boolean
  | dateTime
  | function
  | interval
deriving DecidableEq, Repr

/-- A column reference `{name, type}` (editor/expressions.ts,
`QueryEditorProperty`). -/
structure QueryEditorProperty where
  name : String
  type : QueryEditorPropertyType
deriving DecidableEq, Repr

/-- The value carried by an operator: a scalar or an array of scalars
(`operator.value` in the source is `any`; the editor produces strings or
arrays of strings). -/
inductive QueryEditorOperatorValue where
  | single (value : String)
  | multiple (values : List String)
deriving DecidableEq, Repr

/-- The operator payload `{name, value}` of an operator expression. -/
structure QueryEditorOperator where
  name : String
  value : QueryEditorOperatorValue
deriving DecidableEq, Repr

/-- One entry of a reduce expression's `parameters` array
(`QueryEditorFunctionParameterExpression`: `{fieldType, value}`). -/
structure QueryEditorFunctionParameter where
  fieldType : QueryEditorPropertyType
  value : String
deriving DecidableEq, Repr

/-- The combinator of an array expression (And / Or). -/
inductive Combinator where
  | and
  | or
deriving DecidableEq, Repr

/-- The discriminated expression variants of editor/expressions.ts.  The
`type` tag of the source (checked by the guards in editor/guards.ts:
`isFieldAndOperator`, `isReduceExpression`, `isGroupBy`, `isAndExpression`,
`isOrExpression`, `isArrayExpression`) becomes the constructor. -/
inductive QueryEditorExpression where
  | propertyExpr (property : QueryEditorProperty)
  | operatorExpr (property : QueryEditorProperty) (operator : QueryEditorOperator)
  | reduceExpr (property : QueryEditorProperty) (reduce : QueryEditorProperty)
      (parameters : Option (List QueryEditorFunctionParameter))
  | groupByExpr (property : QueryEditorProperty) (interval : Option QueryEditorProperty)
  | arrayExpr (combinator : Combinator) (expressions : List QueryEditorExpression)

/-- The editor type `QueryEditorArrayExpression`: `{type: and|or, expressions}`. -/
structure QueryEditorArrayExpression where
  combinator : Combinator
  expressions : List QueryEditorExpression

/-- The aggregate root (src/types.ts `QueryExpression`).  `from`, `timeshift`
and `smoothing` are property expressions wrapping a single property; they are
modelled by the wrapped property. -/
structure QueryExpression where
  fromProp : Option QueryEditorProperty
  whereExpr : QueryEditorArrayExpression
  reduce : QueryEditorArrayExpression
  groupBy : QueryEditorArrayExpression
  timeshift : Option QueryEditorProperty
  smoothing : Option QueryEditorProperty

/-- The schema entry `AdxColumnSchema`: `{Name, CslType}` (src/types.ts). -/
structure AdxColumnSchema where
  Name : String
  CslType : String
deriving DecidableEq, Repr

/-- The template variable service is used only through
`templateSrv.getVariables()` and the check `"$" + variable.id === value`;
it is modelled as the list of variable ids. -/
def isTemplateVariable (templateVars : List String) (value : String) : Bool :=
  templateVars.any (fun id => "$" ++ id == value)

/-- Scalar case of `formatValue`: template variables verbatim, Number and
Boolean raw, everything else single-quoted. -/
def formatSingleValue (templateVars : List String) (value : String)
    (type : QueryEditorPropertyType) : String :=
  if isTemplateVariable templateVars value then value
  else
    match type with
    | .number => value
    | .boolean => value
    | _ => "'" ++ value ++ "'"

/-- Source `formatValue(value, type)`: arrays format element-wise and join as a
parenthesized comma list, else the scalar case. -/
def formatValue (templateVars : List String) (value : QueryEditorOperatorValue)
    (type : QueryEditorPropertyType) : String :=
  match value with
  | .multiple vs =>
      "(" ++ String.intercalate ", " (vs.map (fun v => formatSingleValue templateVars v type)) ++ ")"
  | .single v => formatSingleValue templateVars v type

/-- Does the character list start with `sub`? -/
def charsBeginWith : List Char → List Char → Bool
  | [], _ => true
  | _ :: _, [] => false
  | a :: as, b :: bs => a == b && charsBeginWith as bs

/-- Does `sub` occur contiguously in the character list? -/
def charsHasSub (sub : List Char) : List Char → Bool
  | [] => charsBeginWith sub []
  | c :: cs => charsBeginWith sub (c :: cs) || charsHasSub sub cs

/-- JavaScript `s.indexOf(token) > -1` for a non-empty token: the token occurs in `s`. -/
def containsToken (s token : String) : Bool :=
  charsHasSub token.data s.data

/-- JavaScript `s.split('.')` (single-character separator, as used on column
names): split at every dot, keeping empty segments. -/
def splitOnDotGo : List Char → List Char → List String
  | [], acc => [String.mk acc.reverse]
  | c :: cs, acc =>
      if c == Char.ofNat 46 then String.mk acc.reverse :: splitOnDotGo cs []
      else splitOnDotGo cs (c :: acc)

/-- JavaScript `s.split('.')` on a string. -/
def splitOnDot (s : String) : List String :=
  splitOnDotGo s.data []

/-- Source `isDynamic(column)`: the name is non-empty and contains a path separator,
or is non-empty and contains a `todynamic` cast token. -/
def isDynamic (column : String) : Bool :=
  (column != "" && containsToken column ".") ||
  (column != "" && containsToken column "todynamic")

/-- Inner fold of `toDynamic`: `parts.reduce(...)` with accumulator `result`.
The first segment (empty accumulator) becomes `todynamic(part)`, the final
segment becomes `to<CslType>(result.part)`, every other segment becomes
`todynamic(result.part)`. -/
def toDynamicGo (cslType : String) : String → List String → String
  | result, [] => result
  | result, part :: rest =>
      if result == "" then
        toDynamicGo cslType ("todynamic(" ++ part ++ ")") rest
      else if rest.isEmpty then
        toDynamicGo cslType ("to" ++ cslType ++ "(" ++ result ++ "." ++ part ++ ")") rest
      else
        toDynamicGo cslType ("todynamic(" ++ result ++ "." ++ part ++ ")") rest

/-- Source `toDynamic(column)`: split the dotted name and fold the cast chain. -/
def toDynamic (column : AdxColumnSchema) : String :=
  toDynamicGo column.CslType "" (splitOnDot column.Name)

/-- Source `castIfDynamic(column, tableSchema)`. -/
def castIfDynamic (column : String) (tableSchema : Option (List AdxColumnSchema)) : String :=
  if !(isDynamic column) then column
  else
    match tableSchema with
    | none => column
    | some schema =>
      match schema.find? (fun c => c.Name == column) with
      | none => column
      | some columnSchema => toDynamic columnSchema

/-- Predicate of the `find` inside `defaultTimeColumn`: a group-by entry on a
DateTime property carrying an interval. -/
def isGroupByDateTimeWithInterval : QueryEditorExpression → Bool
  | .groupByExpr p i => p.type == .dateTime && i.isSome
  | _ => false

/-- Source `defaultTimeColumn(columns, expression)`. -/
def defaultTimeColumn (columns : Option (List AdxColumnSchema))
    (expression : Option QueryExpression) : Option String :=
  let fromGroupBy : Option String :=
    match expression with
    | none => none
    | some e =>
      match e.groupBy.expressions.find? isGroupByDateTimeWithInterval with
      | some (.groupByExpr p _) => some (castIfDynamic p.name columns)
      | _ => none
  match fromGroupBy with
  | some c => some c
  | none =>
    match columns with
    | none => none
    | some cols =>
      match cols.find? (fun col => col.CslType == "datetime" && !(containsToken col.Name ".")) with
      | some firstLevelColumn => some firstLevelColumn.Name
      | none =>
        match cols.find? (fun col => col.CslType == "datetime") with
        | none => none
        | some column => some (toDynamic column)

/-- JavaScript line terminators relevant to the `m` regex flag. -/
def isJsLineTerminator (c : Char) : Bool :=
  c == Char.ofNat 10 || c == Char.ofNat 13 || c == Char.ofNat 0x2028 || c == Char.ofNat 0x2029

/-- Split a character list at JavaScript line terminators. -/
def splitLinesGo : List Char → List Char → List (List Char)
  | [], acc => [acc.reverse]
  | c :: cs, acc =>
      if isJsLineTerminator c then acc.reverse :: splitLinesGo cs []
      else splitLinesGo cs (c :: acc)

/-- One line matches the body of the timespan regex
`\d{1,15}(?:d|h|ms|s|m){0,1}` anchored at both ends: one to fifteen decimal
digits followed by an optional unit.  The digit run and the unit cannot
overlap, so the greedy match is exact. -/
def timeSpanLineMatch (cs : List Char) : Bool :=
  let digits := cs.takeWhile (fun c => c.isDigit)
  let rest := cs.drop digits.length
  decide (1 ≤ digits.length) && decide (digits.length ≤ 15) &&
  (rest == [] || rest == ['d'] || rest == ['h'] || rest == ['m', 's'] ||
   rest == ['s'] || rest == ['m'])

/-- Source `isValidTimeSpan(value)`: the source tests the value against
`/^(\d{1,15}(?:d|h|ms|s|m){0,1})$/gm`; with the `m` flag the anchors match at
line boundaries, so the test succeeds when any line of the value matches. -/
def isValidTimeSpan (value : String) : Bool :=
  (splitLinesGo value.data []).any timeSpanLineMatch

/-- The shared parse context: the resolved time column and the schema (the
source stores a closure over `castIfDynamic _ tableSchema`). -/
structure ParseContext where
  timeColumn : Option String
  schema : Option (List AdxColumnSchema)

/-- The context's `castIfDynamic` closure. -/
def ParseContext.cast (ctx : ParseContext) (column : String) : String :=
  castIfDynamic column ctx.schema

/-- Source `detectTimeshift(context, timeshift)`. -/
def detectTimeshift (ctx : ParseContext) (timeshift : Option QueryEditorProperty) :
    Option String :=
  match timeshift, ctx.timeColumn with
  | some p, some _ => if isValidTimeSpan p.name then some p.name else none
  | _, _ => none

/-- Source `detectSmoothing(smoothing)`: the property name, when present. -/
def detectSmoothing (smoothing : Option QueryEditorProperty) : Option String :=
  smoothing.map (fun p => p.name)

/-- JavaScript truthiness of a `string | null`: `null` and the empty string
are falsy. -/
def truthyName : Option String → Bool
  | none => false
  | some s => s != ""

/-- JavaScript template interpolation of a possibly `undefined` value. -/
def jsInterp : Option String → String
  | some s => s
  | none => "undefined"

/-- Decimal value of a digit string. -/
def digitsToNatGo : List Char → Nat → Nat
  | [], acc => acc
  | c :: cs, acc => digitsToNatGo cs (acc * 10 + (c.toNat - 48))

/-- lodash `toInteger` restricted to the inputs that occur (decimal digit
strings; everything else degrades to 0). -/
def lodashToInteger (s : String) : Nat :=
  if s.data != [] && s.data.all (fun c => c.isDigit) then digitsToNatGo s.data 0 else 0

/-- The ewma weight constant table. -/
def ewmaWeights : List String := ["0.7", "0.5", "0.3", "0.1"]

/-- The median weight constant table. -/
def medianWeights : List String := ["3", "5", "7", "9"]

/-- Source `translateSmoothingWeight(smoothing, weight)`. -/
def translateSmoothingWeight (smoothing weight : String) : Option String :=
  if smoothing == "median" then medianWeights.get? (lodashToInteger weight)
  else if smoothing == "ewma" then ewmaWeights.get? (lodashToInteger weight)
  else none

/-- Source `withPrefix(value, prefix?)` of the source: prepend the prefix and a
space when the prefix is truthy. -/
def withPre (value : String) (pre : Option String) : String :=
  match pre with
  | some p => if p != "" then p ++ " " ++ value else value
  | none => value

/-- Source `appendTimeFilter`: nothing without a time column; shifted `between`
filter for a valid timeshift; explicit `between` for a dynamic time column;
else the `$__timeFilter` macro. -/
def appendTimeFilter (ctx : ParseContext) (expression : Option QueryEditorProperty) :
    List String :=
  match ctx.timeColumn with
  | none => []
  | some tc =>
    match detectTimeshift ctx expression with
    | some shift =>
        ["where " ++ tc ++ " between (($__timeFrom - " ++ shift ++ ") .. ($__timeTo - " ++
          shift ++ "))"]
    | none =>
      if isDynamic tc then ["where " ++ tc ++ " between ($__timeFrom .. $__timeTo)"]
      else ["where $__timeFilter(" ++ tc ++ ")"]

/-- Source `appendTimeshift`: the `extend` re-align stage for a valid timeshift. -/
def appendTimeshiftStage (ctx : ParseContext) (expression : Option QueryEditorProperty) :
    List String :=
  match detectTimeshift ctx expression with
  | none => []
  | some shift =>
      ["extend " ++ jsInterp ctx.timeColumn ++ " = " ++ jsInterp ctx.timeColumn ++ " + " ++ shift]

/-- Source `appendOperator`: skip when the property or operator name is missing;
unary `isnotempty` test; else `property op formattedValue`. -/
def appendOperator (templateVars : List String) (property : QueryEditorProperty)
    (operator : QueryEditorOperator) (pre : Option String) : List String :=
  if property.name == "" || operator.name == "" then []
  else if operator.name == "isnotempty" then
    [withPre (operator.name ++ "(" ++ property.name ++ ")") pre]
  else
    [withPre (property.name ++ " " ++ operator.name ++ " " ++
      formatValue templateVars operator.value property.type) pre]

mutual

/-- Source `appendWhere`: And-children each lower to their own stages with the same
prefix; an Or-node lowers its children without a prefix into a local buffer
and emits one `where`-joined stage unless the buffer is empty; operator
nodes lower through `appendOperator`; other nodes are skipped. -/
def appendWhereExpr (templateVars : List String) (ctx : ParseContext)
    (pre : Option String) : QueryEditorExpression → List String
  | .arrayExpr .and es => appendWhereList templateVars ctx pre es
  | .arrayExpr .or es =>
      let orParts := appendWhereList templateVars ctx none es
      if orParts.isEmpty then []
      else ["where " ++ String.intercalate " or " orParts]
  | .operatorExpr p op => appendOperator templateVars p op pre
  | _ => []

/-- The `forEach` / `map` over children in `appendWhere`, collecting the
pushed parts in order. -/
def appendWhereList (templateVars : List String) (ctx : ParseContext)
    (pre : Option String) : List QueryEditorExpression → List String
  | [] => []
  | e :: es =>
      appendWhereExpr templateVars ctx pre e ++ appendWhereList templateVars ctx pre es

end

/-- The reduce loop of `appendSummarize`, threading the `countAddedInReduce`
flag and collecting `(reduceParts, columns)` in push order. -/
def summarizeReduceFold (templateVars : List String) (ctx : ParseContext) :
    List QueryEditorExpression → Bool → List String × List String
  | [], _ => ([], [])
  | e :: es, countAdded =>
    match e with
    | .reduceExpr p r params =>
      let column := ctx.cast p.name
      match params with
      | some ps =>
          let funcParams := String.intercalate ", "
            (ps.map (fun q => formatValue templateVars (.single q.value) q.fieldType))
          let rest := summarizeReduceFold templateVars ctx es countAdded
          ((r.name ++ "(" ++ column ++ ", " ++ funcParams ++ ")") :: rest.1, column :: rest.2)
      | none =>
          if r.name == "count" then
            if countAdded then
              let rest := summarizeReduceFold templateVars ctx es true
              (rest.1, column :: rest.2)
            else
              let rest := summarizeReduceFold templateVars ctx es true
              ("count()" :: rest.1, column :: rest.2)
          else if r.name != "none" then
            let rest := summarizeReduceFold templateVars ctx es countAdded
            ((r.name ++ "(" ++ column ++ ")") :: rest.1, column :: rest.2)
          else
            let rest := summarizeReduceFold templateVars ctx es countAdded
            (rest.1, column :: rest.2)
    | _ => summarizeReduceFold templateVars ctx es countAdded

/-- The group-by loop of `appendSummarize` with its accumulator: an
interval-bearing entry is `unshift`ed as `bin(column, interval)`, a plain
entry is pushed. -/
def summarizeGroupByLoop (ctx : ParseContext) :
    List QueryEditorExpression → List String → List String
  | [], acc => acc
  | e :: es, acc =>
    match e with
    | .groupByExpr p i =>
      let column := ctx.cast p.name
      match i with
      | some interval =>
          summarizeGroupByLoop ctx es (("bin(" ++ column ++ ", " ++ interval.name ++ ")") :: acc)
      | none => summarizeGroupByLoop ctx es (acc ++ [column])
    | _ => summarizeGroupByLoop ctx es acc

/-- Source `appendSummarize`: skipped entirely when a truthy smoothing algorithm
other than `median` is present; else builds the aggregation and group-by
lists and emits `summarize`, `summarize by`, the `project` fallback, or
nothing. -/
def appendSummarize (templateVars : List String) (ctx : ParseContext)
    (smoothingExpression : Option QueryEditorProperty)
    (reduce groupBy : QueryEditorArrayExpression) : List String :=
  let smoothing := detectSmoothing smoothingExpression
  if truthyName smoothing && smoothing.getD "" != "median" then []
  else
    let folded := summarizeReduceFold templateVars ctx reduce.expressions false
    let reduceParts := folded.1
    let columns := folded.2
    let groupByParts := summarizeGroupByLoop ctx groupBy.expressions []
    if !reduceParts.isEmpty then
      if !groupByParts.isEmpty then
        ["summarize " ++ String.intercalate ", " reduceParts ++ " by " ++
          String.intercalate ", " groupByParts]
      else
        ["summarize " ++ String.intercalate ", " reduceParts]
    else if !groupByParts.isEmpty then
      ["summarize by " ++ String.intercalate ", " groupByParts]
    else if !columns.isEmpty then
      ["project " ++ String.intercalate ", " columns]
    else []

/-- The reduce loop of `appendSmoothing`: the last reduce entry wins for
`(reduceFunc, reduceColumn)`. -/
def smoothingReduceLoop (ctx : ParseContext) :
    List QueryEditorExpression → String × String → String × String
  | [], acc => acc
  | e :: es, acc =>
    match e with
    | .reduceExpr p r _ => smoothingReduceLoop ctx es (r.name, ctx.cast p.name)
    | _ => smoothingReduceLoop ctx es acc

/-- The group-by loop of `appendSmoothing`: the last interval wins for
`groupByInterval`, plain entries are pushed onto `groupByParts`. -/
def smoothingGroupByLoop (ctx : ParseContext) :
    List QueryEditorExpression → String × List String → String × List String
  | [], acc => acc
  | e :: es, acc =>
    match e with
    | .groupByExpr p i =>
      let column := ctx.cast p.name
      match i with
      | some iv => smoothingGroupByLoop ctx es (iv.name, acc.2)
      | none => smoothingGroupByLoop ctx es (acc.1, acc.2 ++ [column])
    | _ => smoothingGroupByLoop ctx es acc

/-- Source `appendSmoothing`: nothing without a truthy smoothing algorithm or with
an empty reduce or group-by; non-median algorithms emit
make-series / optional extend / mv-expand / project; `median` emits a single
`evaluate rolling_percentile(...)` stage. -/
def appendSmoothing (ctx : ParseContext) (smoothingExpression : Option QueryEditorProperty)
    (reduceExpression groupByExpression : QueryEditorArrayExpression) : List String :=
  let smoothing := detectSmoothing smoothingExpression
  let noGroupBy := groupByExpression.expressions.isEmpty
  let noReduce := reduceExpression.expressions.isEmpty
  if !(truthyName smoothing) || noReduce || noGroupBy then []
  else
    let s := smoothing.getD ""
    let reduced := smoothingReduceLoop ctx reduceExpression.expressions ("", "")
    let reduceFunc := reduced.1
    let reduceColumn := reduced.2
    let grouped := smoothingGroupByLoop ctx groupByExpression.expressions ("", [])
    let groupByInterval := grouped.1
    let groupByParts := grouped.2
    if s != "median" then
      (if groupByParts.isEmpty then
        ["make-series " ++ ("a=" ++ reduceFunc ++ "(" ++ reduceColumn ++ ") on " ++
          jsInterp ctx.timeColumn ++ " from $__timeFrom to $__timeTo step " ++ groupByInterval)]
      else
        ["make-series " ++ ("a=" ++ reduceFunc ++ "(" ++ reduceColumn ++ ") on " ++
          jsInterp ctx.timeColumn ++ " from $__timeFrom to $__timeTo step " ++ groupByInterval ++
          " by " ++ String.intercalate ", " groupByParts)])
      ++ (if s == "ewma" then
            ["extend b=series_exp_smoothing_udf(a, " ++
              jsInterp (translateSmoothingWeight s "1") ++ ")"]
          else [])
      ++ (if s == "auto" then ["extend b=series_moving_avg_udf(a, 10, false)"] else [])
      ++ ["mv-expand " ++ (jsInterp ctx.timeColumn ++ " to typeof(datetime), b to typeof(real)")]
      ++ (if groupByParts.isEmpty then
            ["project " ++ (jsInterp ctx.timeColumn ++ ", b")]
          else
            ["project " ++ (jsInterp ctx.timeColumn ++ ", b, " ++
              String.intercalate ", " groupByParts)])
    else
      if groupByParts.isEmpty then
        ["evaluate rolling_percentile(" ++
          (reduceFunc ++ "_" ++ reduceColumn ++ ", 50, " ++ jsInterp ctx.timeColumn ++ ", " ++
            groupByInterval ++ ", " ++ jsInterp (translateSmoothingWeight s "1")) ++ ")"]
      else
        ["evaluate rolling_percentile(" ++
          (reduceFunc ++ "_" ++ reduceColumn ++ ", 50, " ++ jsInterp ctx.timeColumn ++ ", " ++
            groupByInterval ++ ", " ++ jsInterp (translateSmoothingWeight s "1") ++ ", " ++
            String.intercalate ", " groupByParts) ++ ")"]

/-- Predicate of the `find` inside `appendOrderBy`: any group-by entry
carrying an interval. -/
def isGroupByWithInterval : QueryEditorExpression → Bool
  | .groupByExpr _ i => i.isSome
  | _ => false

/-- Source `appendOrderBy`: `order by <tc> asc` when there is no grouping and no
aggregation, or when some group-by entry carries an interval. -/
def appendOrderBy (ctx : ParseContext) (groupBy reduce : QueryEditorArrayExpression) :
    List String :=
  match ctx.timeColumn with
  | none => []
  | some tc =>
    let noGroupBy := groupBy.expressions.isEmpty
    let noReduce := reduce.expressions.isEmpty
    if noGroupBy && noReduce then ["order by " ++ tc ++ " asc"]
    else
      match groupBy.expressions.find? isGroupByWithInterval with
      | some _ => ["order by " ++ tc ++ " asc"]
      | none => []

/-- The ordered stage list built by `toQuery` (before joining). -/
def toQueryParts (templateVars : List String) (e : QueryExpression)
    (tableSchema : Option (List AdxColumnSchema)) : List String :=
  let ctx : ParseContext := ⟨defaultTimeColumn tableSchema (some e), tableSchema⟩
  (match e.fromProp with
   | none => []
   | some f => [f.name])
  ++ appendTimeFilter ctx e.timeshift
  ++ appendWhereExpr templateVars ctx (some "where")
      (.arrayExpr e.whereExpr.combinator e.whereExpr.expressions)
  ++ appendTimeshiftStage ctx e.timeshift
  ++ appendSummarize templateVars ctx e.smoothing e.reduce e.groupBy
  ++ appendSmoothing ctx e.smoothing e.reduce e.groupBy
  ++ appendOrderBy ctx e.groupBy e.reduce

/-- Source `toQuery(expression, tableSchema)`: empty string without an expression or
`from` table; else the stage list joined by a newline-pipe separator. -/
def toQuery (templateVars : List String) (expression : Option QueryExpression)
    (tableSchema : Option (List AdxColumnSchema)) : String :=
  match expression with
  | none => ""
  | some e =>
    match e.fromProp with
    | none => ""
    | some _ =>
      let parts := toQueryParts templateVars e tableSchema
      if parts.isEmpty then "" else String.intercalate "\n| " parts

/-!
Heap model of the autocomplete tree splice.  `replaceByIndex` is the one
code path that mutates: it deep-clones the `where` tree (lodash `cloneDeep`)
and then walks the dash-separated index path, overwriting one slot of an
`expressions` array of the clone in place.  To state the frame property, the
object graph is made explicit: nodes live at addresses (list indices) in a
heap, an array expression holds the addresses of its children, `cloneDeep`
allocates fresh copies at fresh addresses, and the splice updates one array
node in place.
-/

/-- Leaf payload of a heap node: any non-array expression variant (only
its identity matters to the splice, which never looks inside leaves). -/
inductive HLeaf where
  | operatorNode (property : QueryEditorProperty) (operator : QueryEditorOperator)
  | propertyNode (property : QueryEditorProperty)
  | groupByNode (property : QueryEditorProperty) (interval : Option QueryEditorProperty)
deriving DecidableEq, Repr

/-- A heap node: a leaf expression or an array expression whose
`expressions` field holds the addresses of its children. -/
inductive HNode where
  | leaf (node : HLeaf)
  | arrayNode (combinator : Combinator) (children : List Nat)
deriving DecidableEq, Repr

/-- The heap: node addresses are list indices, allocation appends. -/
abbrev Heap := List HNode

/-- The child addresses held by a node. -/
def nodeChildren : HNode → List Nat
  | .leaf _ => []
  | .arrayNode _ cs => cs

mutual

/-- lodash `cloneDeep` on the heap: recursively copy the node at `a`,
allocating every copy at a fresh address; returns the extended heap and the
address of the copy.  Fuel bounds the recursion (the source relies on the
object graph being a finite tree). -/
def cloneDeepH : Nat → Heap → Nat → Option (Heap × Nat)
  | 0, _, _ => none
  | fuel + 1, h, a =>
    match h[a]? with
    | none => none
    | some (HNode.leaf nd) => some (h ++ [HNode.leaf nd], h.length)
    | some (HNode.arrayNode c children) =>
      match cloneListH fuel h children with
      | none => none
      | some (h1, bs) => some (h1 ++ [HNode.arrayNode c bs], h1.length)

/-- Clone a list of children left to right, threading the heap. -/
def cloneListH : Nat → Heap → List Nat → Option (Heap × List Nat)
  | _, h, [] => some (h, [])
  | 0, _, _ :: _ => none
  | fuel + 1, h, a :: as =>
    match cloneDeepH fuel h a with
    | none => none
    | some (h1, b) =>
      match cloneListH fuel h1 as with
      | none => none
      | some (h2, bs) => some (h2, b :: bs)

end

/-- The key walk of `replaceByIndex` after the clone: at the last key,
`current[key] = operator` overwrites one slot of the current array node's
`expressions` in place; at every earlier key the walk descends into the
indexed child when it is an array expression and otherwise leaves `current`
unchanged.  (A JavaScript index assignment past the end would grow the
array; `List.set` out of range is a no-op — the difference only concerns the
clone, never the caller's nodes.) -/
def spliceWalk (opAddr : Nat) : Heap → Nat → List Nat → Heap
  | h, _, [] => h
  | h, cur, [k] =>
    match h[cur]? with
    | some (HNode.arrayNode c children) => h.set cur (HNode.arrayNode c (children.set k opAddr))
    | _ => h
  | h, cur, k :: k2 :: rest =>
    match h[cur]? with
    | some (HNode.arrayNode _ children) =>
      match children[k]? with
      | some childAddr =>
        match h[childAddr]? with
        | some (HNode.arrayNode _ _) => spliceWalk opAddr h childAddr (k2 :: rest)
        | _ => spliceWalk opAddr h cur (k2 :: rest)
      | none => spliceWalk opAddr h cur (k2 :: rest)
    | _ => spliceWalk opAddr h cur (k2 :: rest)

/-- Source `replaceByIndex(index, expression, operator)` on the heap: deep-clone the
tree rooted at `rootAddr`, then splice the replacement node (already living
at `opAddr`) into the clone along the key path. -/
def replaceByIndexH (fuel : Nat) (h : Heap) (rootAddr : Nat) (keys : List Nat)
    (opAddr : Nat) : Option (Heap × Nat) :=
  match cloneDeepH fuel h rootAddr with
  | none => none
  | some (h1, cloneAddr) => some (spliceWalk opAddr h1 cloneAddr keys, cloneAddr)

/-- Addresses at or above `n` form a closed region: their children stay at
or above `n`. -/
def regionClosed (n : Nat) (h : Heap) : Prop :=
  ∀ i nd, n ≤ i → h[i]? = some nd → ∀ c ∈ nodeChildren nd, n ≤ c

/-!
Definitions following the spec's words, for comparison with the
source-derived definitions (refinement claims C2 and C9).
-/

/-- The spec's nested-cast fold (§4.2), stated on the already-split path:
every segment except the last is wrapped in `todynamic(...)`, the last in
`to<TargetType>(...)`. -/
def specNestedCastGo (cslType : String) (acc : String) : List String → String
  | [] => acc
  | [last] => "to" ++ cslType ++ "(" ++ acc ++ "." ++ last ++ ")"
  | p :: ps => specNestedCastGo cslType ("todynamic(" ++ acc ++ "." ++ p ++ ")") ps

/-- The spec's nested-cast fold, starting from the first segment. -/
def specNestedCast (cslType : String) : List String → String
  | [] => ""
  | p :: ps => specNestedCastGo cslType ("todynamic(" ++ p ++ ")") ps

/-- A reduce entry named `count` carrying no parameter list — the only kind
the `countAddedInReduce` deduplication in `appendSummarize` applies to. -/
def isPlainCountReduce : QueryEditorExpression → Bool
  | .reduceExpr _ r none => r.name == "count"
  | _ => false

/-- Drop every parameterless `count` reduction after the first (after any,
when `seen` starts true).  Used to state that subsequent `count` reductions
contribute no aggregation term. -/
def dropLaterPlainCounts : List QueryEditorExpression → Bool → List QueryEditorExpression
  | [], _ => []
  | e :: es, seen =>
    if isPlainCountReduce e then
      if seen then dropLaterPlainCounts es true
      else e :: dropLaterPlainCounts es true
    else e :: dropLaterPlainCounts es seen

/-- The clause text `appendOperator` produces for an operator node (before
the prefix is attached). -/
def opClause (templateVars : List String) : QueryEditorExpression → String
  | .operatorExpr p op =>
      if op.name == "isnotempty" then op.name ++ "(" ++ p.name ++ ")"
      else p.name ++ " " ++ op.name ++ " " ++ formatValue templateVars op.value p.type
  | _ => ""

/-!  Concrete inputs used by the scenario claims and witnesses.  -/

/-- C1 scenario: `from=Logs`, one `count` reduction, one group-by on the
DateTime column Timestamp with interval 5m, empty where. -/
def scenarioCount : QueryExpression := {
  fromProp := some ⟨"Logs", .string⟩
  whereExpr := ⟨.and, []⟩
  reduce := ⟨.and, [.reduceExpr ⟨"", .string⟩ ⟨"count", .function⟩ none]⟩
  groupBy := ⟨.and, [.groupByExpr ⟨"Timestamp", .dateTime⟩ (some ⟨"5m", .interval⟩)]⟩
  timeshift := none
  smoothing := none }

/-- C7 scenario: smoothing ewma, reduce avg(Value), group-by on Timestamp
with interval 1m. -/
def scenarioEwma : QueryExpression := {
  fromProp := some ⟨"Logs", .string⟩
  whereExpr := ⟨.and, []⟩
  reduce := ⟨.and, [.reduceExpr ⟨"Value", .number⟩ ⟨"avg", .function⟩ none]⟩
  groupBy := ⟨.and, [.groupByExpr ⟨"Timestamp", .dateTime⟩ (some ⟨"1m", .interval⟩)]⟩
  timeshift := none
  smoothing := some ⟨"ewma", .function⟩ }

/-- Two simple filter children, used to witness the where-builder claims. -/
def sampleFilters : List QueryEditorExpression :=
  [.operatorExpr ⟨"A", .string⟩ ⟨"==", .single "a"⟩,
   .operatorExpr ⟨"B", .string⟩ ⟨"==", .single "b"⟩]

/-- Two `count` reductions that carry a parameter list — these bypass the
`countAddedInReduce` deduplication. -/
def sampleParamCounts : List QueryEditorExpression :=
  [.reduceExpr ⟨"Value", .number⟩ ⟨"count", .function⟩ (some [⟨.string, "x"⟩]),
   .reduceExpr ⟨"Value", .number⟩ ⟨"count", .function⟩ (some [⟨.string, "x"⟩])]

/-- A two-node heap: an array expression whose only child is an operator
leaf. -/
def sampleHeap : Heap :=
  [HNode.arrayNode .and [1],
   HNode.leaf (.operatorNode ⟨"A", .string⟩ ⟨"==", .single "a"⟩)]

/-- The heap `sampleHeap` after `replaceByIndexH 5 sampleHeap 0 [0] 1`: the clone
(addresses 2 and 3) is spliced, the original cells are untouched. -/
def sampleHeapAfter : Heap :=
  [HNode.arrayNode .and [1],
   HNode.leaf (.operatorNode ⟨"A", .string⟩ ⟨"==", .single "a"⟩),
   HNode.leaf (.operatorNode ⟨"A", .string⟩ ⟨"==", .single "a"⟩),
   HNode.arrayNode .and [1]]

/-!  Helper lemmas.  -/

theorem string_ne_empty_of_append (s t : String) (hs : s ≠ "") : s ++ t ≠ "" := by
  intro h
  apply hs
  have hd := congrArg String.data h
  rw [String.data_append] at hd
  have h2 : s.data ++ t.data = [] := hd
  exact String.ext (List.append_eq_nil.mp h2).1

theorem todynamic_ne_empty (x : String) : ("todynamic(" ++ x) ≠ "" :=
  string_ne_empty_of_append _ _ (by decide)

theorem toDynamicGo_eq_specGo (T : String) :
    ∀ (ps : List String) (acc : String), acc ≠ "" →
      toDynamicGo T acc ps = specNestedCastGo T acc ps := by
  intro ps
  induction ps with
  | nil => intro acc _; rfl
  | cons p ps ih =>
    intro acc hacc
    have hb : (acc == "") = false := beq_eq_false_iff_ne.mpr hacc
    cases ps with
    | nil => simp [toDynamicGo, specNestedCastGo, hb]
    | cons q qs =>
      have hacc2 : ("todynamic(" ++ acc ++ "." ++ p ++ ")") ≠ "" :=
        string_ne_empty_of_append _ _ (string_ne_empty_of_append _ _
          (string_ne_empty_of_append _ _ (todynamic_ne_empty acc)))
      calc toDynamicGo T acc (p :: q :: qs)
          = toDynamicGo T ("todynamic(" ++ acc ++ "." ++ p ++ ")") (q :: qs) := by
            simp [toDynamicGo, hb]
        _ = specNestedCastGo T ("todynamic(" ++ acc ++ "." ++ p ++ ")") (q :: qs) :=
            ih _ hacc2
        _ = specNestedCastGo T acc (p :: q :: qs) := rfl

theorem toDynamic_eq_specNestedCast (col : AdxColumnSchema) :
    toDynamic col = specNestedCast col.CslType (splitOnDot col.Name) := by
  unfold toDynamic
  cases h : splitOnDot col.Name with
  | nil => rfl
  | cons p ps =>
    have h1 : toDynamicGo col.CslType "" (p :: ps) =
        toDynamicGo col.CslType ("todynamic(" ++ p ++ ")") ps := by
      simp [toDynamicGo]
    rw [h1, toDynamicGo_eq_specGo _ ps _
      (string_ne_empty_of_append _ _ (todynamic_ne_empty p))]
    rfl

/-!  Claim theorems.  -/

/-- C1: for the query expression with `from=Logs`, one group-by on the
DateTime property Timestamp with interval 5m, one `count` reduction, empty
where and no timeshift or smoothing, `toQuery` returns exactly the four
stages `Logs`, `where $__timeFilter(Timestamp)`,
`summarize count() by bin(Timestamp, 5m)`, `order by Timestamp asc`, in that
order, joined by a newline-pipe separator. -/
theorem toQuery_count_scenario :
    toQuery [] (some scenarioCount) none =
      "Logs" ++ "\n| " ++ "where $__timeFilter(Timestamp)" ++ "\n| " ++
      "summarize count() by bin(Timestamp, 5m)" ++ "\n| " ++ "order by Timestamp asc" := by
  rfl

/-- C2: for every column name containing a path separator that the schema
maps to a declared type `T`, `castIfDynamic` returns the spec's nested cast
fold over the dotted path: the first segment becomes `todynamic(first)`,
each further non-final segment wraps the accumulator as `todynamic(acc.seg)`,
and the final segment wraps it as `to<T>(acc.last)`. -/
theorem castIfDynamic_nested_cast (name T : String) (schema : List AdxColumnSchema)
    (hdot : containsToken name "." = true)
    (hfind : schema.find? (fun c => c.Name == name) = some ⟨name, T⟩) :
    castIfDynamic name (some schema) = specNestedCast T (splitOnDot name) := by
  have hne : name ≠ "" := by
    intro h; subst h; exact absurd hdot (by decide)
  have hdyn : isDynamic name = true := by
    simp [isDynamic, hdot, hne]
  unfold castIfDynamic
  rw [hdyn]
  simp only [Bool.not_true, Bool.false_eq_true, if_false]
  rw [hfind]
  exact toDynamic_eq_specNestedCast ⟨name, T⟩

/-- Witness for C2 at the spec's example: `Tags.region` with schema type
`string` yields `tostring(todynamic(Tags).region)`. -/
theorem castIfDynamic_nested_cast_witness :
    containsToken "Tags.region" "." = true ∧
    [({ Name := "Tags.region", CslType := "string" } : AdxColumnSchema)].find?
        (fun c => c.Name == "Tags.region") = some ⟨"Tags.region", "string"⟩ ∧
    castIfDynamic "Tags.region" (some [⟨"Tags.region", "string"⟩]) =
      specNestedCast "string" (splitOnDot "Tags.region") ∧
    castIfDynamic "Tags.region" (some [⟨"Tags.region", "string"⟩]) =
      "tostring(todynamic(Tags).region)" :=
  ⟨by decide, by rfl,
    castIfDynamic_nested_cast "Tags.region" "string" _ (by decide) (by rfl), by rfl⟩

/-- C7: for smoothing `ewma` (weight index 1 ⇒ table entry 0.5), reduce
avg(Value) and group-by on Timestamp with interval 1m, the compiled pipeline
contains, in order, the make-series, extend, mv-expand and project stages. -/
theorem toQuery_ewma_scenario :
    ∃ before after, toQueryParts [] scenarioEwma none =
      before ++
      ["make-series a=avg(Value) on Timestamp from $__timeFrom to $__timeTo step 1m",
       "extend b=series_exp_smoothing_udf(a, 0.5)",
       "mv-expand Timestamp to typeof(datetime), b to typeof(real)",
       "project Timestamp, b"] ++ after :=
  ⟨["Logs", "where $__timeFilter(Timestamp)"], ["order by Timestamp asc"], by rfl⟩

/-- The children loop of the where builder is the flat concatenation of the
children's lowerings, in order. -/
theorem appendWhereList_eq_flatMap (tv : List String) (ctx : ParseContext)
    (pre : Option String) (es : List QueryEditorExpression) :
    appendWhereList tv ctx pre es = es.flatMap (appendWhereExpr tv ctx pre) := by
  induction es with
  | nil => rfl
  | cons e es ih => simp [appendWhereList, ih]

/-- The source helper `withPrefix` applied with the `where` keyword. -/
theorem withPre_where (v : String) : withPre v (some "where") = "where " ++ v := rfl

/-- An operator node with resolved names lowers to exactly one prefixed
clause. -/
theorem appendOperator_eq (tv : List String) (p : QueryEditorProperty)
    (op : QueryEditorOperator) (hp : p.name ≠ "") (hop : op.name ≠ "") :
    appendOperator tv p op (some "where") =
      ["where " ++ opClause tv (.operatorExpr p op)] := by
  have hp2 : (p.name == "") = false := beq_eq_false_iff_ne.mpr hp
  have hop2 : (op.name == "") = false := beq_eq_false_iff_ne.mpr hop
  by_cases hio : op.name = "isnotempty"
  · simp [appendOperator, opClause, hp2, hop2, hio, withPre_where]
  · have hio2 : (op.name == "isnotempty") = false := beq_eq_false_iff_ne.mpr hio
    simp [appendOperator, opClause, hp2, hop2, hio2, withPre_where]

/-- C5: for an Or-combinator array whose children each lower to a non-empty
clause, the compiler emits exactly one stage — the `where` prefix followed
by the children's clauses joined with `" or "`; when every child lowers to
nothing, no stage is emitted. -/
theorem or_combinator_stage (tv : List String) (ctx : ParseContext)
    (es : List QueryEditorExpression) :
    (es ≠ [] → (∀ e ∈ es, appendWhereExpr tv ctx none e ≠ []) →
      appendWhereExpr tv ctx (some "where") (.arrayExpr .or es) =
        ["where " ++
          String.intercalate " or " (es.flatMap (appendWhereExpr tv ctx none))]) ∧
    ((∀ e ∈ es, appendWhereExpr tv ctx none e = []) →
      appendWhereExpr tv ctx (some "where") (.arrayExpr .or es) = []) := by
  constructor
  · intro hne hall
    have hnonempty : es.flatMap (appendWhereExpr tv ctx none) ≠ [] := by
      cases es with
      | nil => exact absurd rfl hne
      | cons e es2 =>
        simp only [List.flatMap_cons]
        intro hcontra
        exact hall e (List.mem_cons_self e es2) (List.append_eq_nil.mp hcontra).1
    show (let orParts := appendWhereList tv ctx none es;
          if orParts.isEmpty then []
          else ["where " ++ String.intercalate " or " orParts]) = _
    rw [appendWhereList_eq_flatMap]
    simp [List.isEmpty_eq_false.mpr hnonempty]
  · intro hall
    have hempty : appendWhereList tv ctx none es = [] := by
      rw [appendWhereList_eq_flatMap]
      exact List.flatMap_eq_nil_iff.mpr hall
    show (let orParts := appendWhereList tv ctx none es;
          if orParts.isEmpty then []
          else ["where " ++ String.intercalate " or " orParts]) = _
    rw [hempty]
    rfl

/-- Witness for C5 on two concrete filter children. -/
theorem or_combinator_stage_witness :
    sampleFilters ≠ [] ∧
    (∀ e ∈ sampleFilters, appendWhereExpr [] ⟨none, none⟩ none e ≠ []) ∧
    appendWhereExpr [] ⟨none, none⟩ (some "where") (.arrayExpr .or sampleFilters) =
      ["where " ++
        String.intercalate " or " (sampleFilters.flatMap (appendWhereExpr [] ⟨none, none⟩ none))] ∧
    appendWhereExpr [] ⟨none, none⟩ (some "where") (.arrayExpr .or sampleFilters) =
      ["where A == 'a' or B == 'b'"] := by
  have hall : ∀ e ∈ sampleFilters, appendWhereExpr [] ⟨none, none⟩ none e ≠ [] := by
    intro e he
    simp only [sampleFilters, List.mem_cons, List.not_mem_nil, or_false] at he
    rcases he with rfl | rfl
    · decide
    · decide
  refine ⟨by simp [sampleFilters], hall,
    (or_combinator_stage [] ⟨none, none⟩ sampleFilters).1 (by simp [sampleFilters]) hall, by rfl⟩

/-- C6: for an And-combinator where tree whose children each carry a resolved
property name, operator name and value, the compiler emits exactly one
`where` stage per child, in the children's list order. -/
theorem and_combinator_stages (tv : List String) (ctx : ParseContext)
    (es : List QueryEditorExpression)
    (h : ∀ e ∈ es, ∃ p op, e = .operatorExpr p op ∧ p.name ≠ "" ∧ op.name ≠ "") :
    appendWhereExpr tv ctx (some "where") (.arrayExpr .and es) =
      es.map (fun e => "where " ++ opClause tv e) := by
  induction es with
  | nil => rfl
  | cons e es ih =>
    obtain ⟨p, op, rfl, hp, hop⟩ := h e (List.mem_cons_self e es)
    have hrest := ih (fun x hx => h x (List.mem_cons_of_mem _ hx))
    show appendWhereList tv ctx (some "where") (QueryEditorExpression.operatorExpr p op :: es) = _
    simp only [appendWhereList, List.map_cons]
    rw [show appendWhereExpr tv ctx (some "where") (.operatorExpr p op) =
          appendOperator tv p op (some "where") from rfl,
        appendOperator_eq tv p op hp hop,
        show appendWhereList tv ctx (some "where") es =
          appendWhereExpr tv ctx (some "where") (.arrayExpr .and es) from rfl,
        hrest]
    rfl

/-- Witness for C6 on two concrete filter children. -/
theorem and_combinator_stages_witness :
    (∀ e ∈ sampleFilters, ∃ p op, e = QueryEditorExpression.operatorExpr p op ∧
      p.name ≠ "" ∧ op.name ≠ "") ∧
    appendWhereExpr [] ⟨none, none⟩ (some "where") (.arrayExpr .and sampleFilters) =
      sampleFilters.map (fun e => "where " ++ opClause [] e) ∧
    appendWhereExpr [] ⟨none, none⟩ (some "where") (.arrayExpr .and sampleFilters) =
      ["where A == 'a'", "where B == 'b'"] := by
  have h : ∀ e ∈ sampleFilters, ∃ p op, e = QueryEditorExpression.operatorExpr p op ∧
      p.name ≠ "" ∧ op.name ≠ "" := by
    intro e he
    simp only [sampleFilters, List.mem_cons, List.not_mem_nil, or_false] at he
    rcases he with rfl | rfl
    · exact ⟨⟨"A", .string⟩, ⟨"==", .single "a"⟩, rfl, by decide, by decide⟩
    · exact ⟨⟨"B", .string⟩, ⟨"==", .single "b"⟩, rfl, by decide, by decide⟩
  exact ⟨h, and_combinator_stages [] ⟨none, none⟩ sampleFilters h, by rfl⟩

/-- C8: for a `median` smoothing algorithm with non-empty reduce and
group-by, the smoothing builder emits exactly one stage, of the form
`evaluate rolling_percentile(<args>)` — in particular no make-series,
extend, or mv-expand stage. -/
theorem median_smoothing_single_stage (ctx : ParseContext) (p : QueryEditorProperty)
    (red grp : QueryEditorArrayExpression) (hname : p.name = "median")
    (hred : red.expressions ≠ []) (hgrp : grp.expressions ≠ []) :
    ∃ args, appendSmoothing ctx (some p) red grp =
      ["evaluate rolling_percentile(" ++ args ++ ")"] := by
  obtain ⟨nm, ty⟩ := p
  have hname2 : nm = "median" := hname
  subst hname2
  have h1 : red.expressions.isEmpty = false := List.isEmpty_eq_false.mpr hred
  have h2 : grp.expressions.isEmpty = false := List.isEmpty_eq_false.mpr hgrp
  simp only [appendSmoothing, detectSmoothing, Option.map_some', Option.getD_some,
    truthyName, h1, h2]
  norm_num
  by_cases hgb : (smoothingGroupByLoop ctx grp.expressions ("", [])).2 = []
  · simp only [hgb, if_pos rfl]
    exact ⟨_, rfl⟩
  · simp only [if_neg hgb]
    exact ⟨_, rfl⟩

/-- Witness for C8: median smoothing over avg(Value), group-by Timestamp
with interval 1m. -/
theorem median_smoothing_single_stage_witness :
    (QueryEditorProperty.mk "median" .function).name = "median" ∧
    scenarioEwma.reduce.expressions ≠ [] ∧
    scenarioEwma.groupBy.expressions ≠ [] ∧
    (∃ args, appendSmoothing ⟨some "Timestamp", none⟩ (some ⟨"median", .function⟩)
      scenarioEwma.reduce scenarioEwma.groupBy =
      ["evaluate rolling_percentile(" ++ args ++ ")"]) ∧
    appendSmoothing ⟨some "Timestamp", none⟩ (some ⟨"median", .function⟩)
      scenarioEwma.reduce scenarioEwma.groupBy =
      ["evaluate rolling_percentile(avg_Value, 50, Timestamp, 1m, 5)"] :=
  ⟨rfl, by simp [scenarioEwma], by simp [scenarioEwma],
    median_smoothing_single_stage ⟨some "Timestamp", none⟩ ⟨"median", .function⟩
      scenarioEwma.reduce scenarioEwma.groupBy rfl (by simp [scenarioEwma])
      (by simp [scenarioEwma]), by rfl⟩

/-- C10: for a non-empty smoothing algorithm name other than `median`, with
non-empty reduce and group-by, the summarize/project stage is suppressed and
the smoothing builder emits a make-series stage, then (only for `ewma` or
`auto`) an extend stage, then an mv-expand and a project stage. -/
theorem nonmedian_smoothing_shape (tv : List String) (ctx : ParseContext)
    (p : QueryEditorProperty) (red grp : QueryEditorArrayExpression)
    (hsm : p.name ≠ "") (hmed : p.name ≠ "median")
    (hred : red.expressions ≠ []) (hgrp : grp.expressions ≠ []) :
    appendSummarize tv ctx (some p) red grp = [] ∧
    ∃ a b c ext, appendSmoothing ctx (some p) red grp =
      ["make-series " ++ a] ++ ext ++ ["mv-expand " ++ b, "project " ++ c] ∧
      (p.name ≠ "ewma" → p.name ≠ "auto" → ext = []) := by
  have ht : (p.name != "") = true := bne_iff_ne.mpr hsm
  have hm : (p.name != "median") = true := bne_iff_ne.mpr hmed
  have h1 : red.expressions.isEmpty = false := List.isEmpty_eq_false.mpr hred
  have h2 : grp.expressions.isEmpty = false := List.isEmpty_eq_false.mpr hgrp
  constructor
  · simp [appendSummarize, detectSmoothing, truthyName, ht, hm]
  · simp only [appendSmoothing, detectSmoothing, Option.map_some', Option.getD_some,
      truthyName, h1, h2]
    norm_num [hsm, hmed]
    by_cases hgb : (smoothingGroupByLoop ctx grp.expressions ("", [])).2 = []
    · simp only [hgb, if_pos rfl]
      refine ⟨"a=" ++ (smoothingReduceLoop ctx red.expressions ("", "")).1 ++ "(" ++
          (smoothingReduceLoop ctx red.expressions ("", "")).2 ++ ") on " ++
          jsInterp ctx.timeColumn ++ " from $__timeFrom to $__timeTo step " ++
          (smoothingGroupByLoop ctx grp.expressions ("", [])).1,
        jsInterp ctx.timeColumn ++ " to typeof(datetime), b to typeof(real)",
        jsInterp ctx.timeColumn ++ ", b",
        (if p.name = "ewma" then
          ["extend b=series_exp_smoothing_udf(a, " ++
            jsInterp (translateSmoothingWeight p.name "1") ++ ")"] else []) ++
        (if p.name = "auto" then ["extend b=series_moving_avg_udf(a, 10, false)"] else []),
        ?_, ?_⟩
      · simp [List.append_assoc]
      · intro he ha
        simp [he, ha]
    · simp only [if_neg hgb]
      refine ⟨"a=" ++ (smoothingReduceLoop ctx red.expressions ("", "")).1 ++ "(" ++
          (smoothingReduceLoop ctx red.expressions ("", "")).2 ++ ") on " ++
          jsInterp ctx.timeColumn ++ " from $__timeFrom to $__timeTo step " ++
          (smoothingGroupByLoop ctx grp.expressions ("", [])).1 ++ " by " ++
          String.intercalate ", " (smoothingGroupByLoop ctx grp.expressions ("", [])).2,
        jsInterp ctx.timeColumn ++ " to typeof(datetime), b to typeof(real)",
        jsInterp ctx.timeColumn ++ ", b, " ++
          String.intercalate ", " (smoothingGroupByLoop ctx grp.expressions ("", [])).2,
        (if p.name = "ewma" then
          ["extend b=series_exp_smoothing_udf(a, " ++
            jsInterp (translateSmoothingWeight p.name "1") ++ ")"] else []) ++
        (if p.name = "auto" then ["extend b=series_moving_avg_udf(a, 10, false)"] else []),
        ?_, ?_⟩
      · simp [List.append_assoc]
      · intro he ha
        simp [he, ha]

/-- Witness for C10 at the unknown algorithm name `foo`: summarize
suppressed, three stages, no extend. -/
theorem nonmedian_smoothing_shape_witness :
    (QueryEditorProperty.mk "foo" .function).name ≠ "" ∧
    (QueryEditorProperty.mk "foo" .function).name ≠ "median" ∧
    scenarioEwma.reduce.expressions ≠ [] ∧
    scenarioEwma.groupBy.expressions ≠ [] ∧
    appendSummarize [] ⟨some "Timestamp", none⟩ (some ⟨"foo", .function⟩)
      scenarioEwma.reduce scenarioEwma.groupBy = [] ∧
    (∃ a b c ext, appendSmoothing ⟨some "Timestamp", none⟩ (some ⟨"foo", .function⟩)
      scenarioEwma.reduce scenarioEwma.groupBy =
      ["make-series " ++ a] ++ ext ++ ["mv-expand " ++ b, "project " ++ c] ∧
      ((QueryEditorProperty.mk "foo" .function).name ≠ "ewma" →
        (QueryEditorProperty.mk "foo" .function).name ≠ "auto" → ext = [])) := by
  have h := nonmedian_smoothing_shape [] ⟨some "Timestamp", none⟩ ⟨"foo", .function⟩
    scenarioEwma.reduce scenarioEwma.groupBy (by decide) (by decide)
    (by simp [scenarioEwma]) (by simp [scenarioEwma])
  exact ⟨by decide, by decide, by simp [scenarioEwma], by simp [scenarioEwma], h.1, h.2⟩

/-- An aggregation term with a parameter list contains a comma, so it is
never the bare `count()`. -/
theorem param_term_ne_count (f col x : String) :
    f ++ "(" ++ col ++ ", " ++ x ++ ")" ≠ "count()" := by
  intro h
  have hm : (Char.ofNat 44) ∈ (f ++ "(" ++ col ++ ", " ++ x ++ ")").data := by
    rw [String.data_append]
    refine List.mem_append_left _ ?_
    rw [String.data_append]
    refine List.mem_append_left _ ?_
    rw [String.data_append]
    refine List.mem_append_right _ ?_
    decide
  rw [h] at hm
  exact absurd hm (by decide)

/-- A generic aggregation term `f(col)` with `f ≠ count` is never the bare
`count()`. -/
theorem generic_term_ne_count (f col : String) (hf : f ≠ "count") :
    f ++ "(" ++ col ++ ")" ≠ "count()" := by
  intro h
  have h1 : f.data ++ ((Char.ofNat 40) :: col.data) =
      [Char.ofNat 99, Char.ofNat 111, Char.ofNat 117, Char.ofNat 110, Char.ofNat 116,
       Char.ofNat 40] := by
    have h0 := congrArg String.data h
    rw [String.data_append, String.data_append, String.data_append] at h0
    have h2 : ((f.data ++ [Char.ofNat 40]) ++ col.data) ++ [Char.ofNat 41] =
        [Char.ofNat 99, Char.ofNat 111, Char.ofNat 117, Char.ofNat 110, Char.ofNat 116,
         Char.ofNat 40] ++ [Char.ofNat 41] := h0
    have h3 := (List.append_inj' h2 rfl).1
    rw [List.append_assoc] at h3
    exact h3
  have hlen := congrArg List.length h1
  rw [List.length_append] at hlen
  have hle : f.data.length ≤ 5 := by
    have hcons : ((Char.ofNat 40) :: col.data).length = col.data.length + 1 := rfl
    have htl : ([Char.ofNat 99, Char.ofNat 111, Char.ofNat 117, Char.ofNat 110,
        Char.ofNat 116, Char.ofNat 40] : List Char).length = 6 := rfl
    rw [hcons, htl] at hlen
    omega
  obtain ⟨hf1, hf2⟩ := List.append_inj
    (h1.trans (List.take_append_drop f.data.length
      [Char.ofNat 99, Char.ofNat 111, Char.ofNat 117, Char.ofNat 110, Char.ofNat 116,
       Char.ofNat 40]).symm)
    (by
      rw [List.length_take]
      have htl : ([Char.ofNat 99, Char.ofNat 111, Char.ofNat 117, Char.ofNat 110,
          Char.ofNat 116, Char.ofNat 40] : List Char).length = 6 := rfl
      rw [htl]
      omega)
  rw [← List.take_append_drop f.data.length
      [Char.ofNat 99, Char.ofNat 111, Char.ofNat 117, Char.ofNat 110, Char.ofNat 116,
       Char.ofNat 40]] at h1
  generalize hgen : f.data.length = k at hle hf1 hf2
  interval_cases k
  · exact absurd (show some (Char.ofNat 40) = some (Char.ofNat 99) from
      congrArg List.head? hf2) (by decide)
  · exact absurd (show some (Char.ofNat 40) = some (Char.ofNat 111) from
      congrArg List.head? hf2) (by decide)
  · exact absurd (show some (Char.ofNat 40) = some (Char.ofNat 117) from
      congrArg List.head? hf2) (by decide)
  · exact absurd (show some (Char.ofNat 40) = some (Char.ofNat 110) from
      congrArg List.head? hf2) (by decide)
  · exact absurd (show some (Char.ofNat 40) = some (Char.ofNat 116) from
      congrArg List.head? hf2) (by decide)
  · exact hf (String.ext hf1)

/-- Occurrences of the bare `count()` aggregation term in the summarize
reduce list: none once the flag is set, exactly one as soon as a
parameterless `count` reduction occurs. -/
theorem summarize_count_occurrences (tv : List String) (ctx : ParseContext) :
    ∀ (es : List QueryEditorExpression) (b : Bool),
      (summarizeReduceFold tv ctx es b).1.count "count()" =
        if b then 0 else (if es.any isPlainCountReduce then 1 else 0) := by
  intro es
  induction es with
  | nil => intro b; cases b <;> simp [summarizeReduceFold]
  | cons e es ih =>
    intro b
    cases e with
    | propertyExpr p => simpa [summarizeReduceFold, isPlainCountReduce] using ih b
    | operatorExpr p op => simpa [summarizeReduceFold, isPlainCountReduce] using ih b
    | groupByExpr p i => simpa [summarizeReduceFold, isPlainCountReduce] using ih b
    | arrayExpr c cs => simpa [summarizeReduceFold, isPlainCountReduce] using ih b
    | reduceExpr p r params =>
      cases params with
      | some ps =>
        have hne := param_term_ne_count r.name (ctx.cast p.name)
          (String.intercalate ", " (ps.map (fun q =>
            formatValue tv (.single q.value) q.fieldType)))
        simp [summarizeReduceFold, isPlainCountReduce, List.count_cons,
          beq_eq_false_iff_ne.mpr hne, ih b]
      | none =>
        by_cases hc : r.name = "count"
        · cases b <;>
            simp [summarizeReduceFold, isPlainCountReduce, List.count_cons, hc, ih]
        · by_cases hn : r.name = "none"
          · simp [summarizeReduceFold, isPlainCountReduce, hc, hn, ih b]
          · have hne := generic_term_ne_count r.name (ctx.cast p.name) hc
            simp [summarizeReduceFold, isPlainCountReduce, List.count_cons, hc, hn,
              beq_eq_false_iff_ne.mpr hne, ih b]

/-- Dropping every parameterless `count` reduction after the first leaves
the summarize aggregation terms unchanged. -/
theorem summarize_drop_later_counts (tv : List String) (ctx : ParseContext) :
    ∀ (es : List QueryEditorExpression) (b : Bool),
      (summarizeReduceFold tv ctx (dropLaterPlainCounts es b) b).1 =
        (summarizeReduceFold tv ctx es b).1 := by
  intro es
  induction es with
  | nil => intro b; rfl
  | cons e es ih =>
    intro b
    by_cases hpc : isPlainCountReduce e = true
    · cases e with
      | reduceExpr p r params =>
        cases params with
        | some ps => simp [isPlainCountReduce] at hpc
        | none =>
          have hc : (r.name == "count") = true := hpc
          cases b with
          | false => simp [dropLaterPlainCounts, hpc, summarizeReduceFold, hc, ih]
          | true => simp [dropLaterPlainCounts, hpc, summarizeReduceFold, hc, ih]
      | propertyExpr p => simp [isPlainCountReduce] at hpc
      | operatorExpr p op => simp [isPlainCountReduce] at hpc
      | groupByExpr p i => simp [isPlainCountReduce] at hpc
      | arrayExpr c cs => simp [isPlainCountReduce] at hpc
    · have hpc2 : isPlainCountReduce e = false := by
        simpa [Bool.not_eq_true] using hpc
      cases e with
      | propertyExpr p => simp [dropLaterPlainCounts, hpc2, summarizeReduceFold, ih b]
      | operatorExpr p op => simp [dropLaterPlainCounts, hpc2, summarizeReduceFold, ih b]
      | groupByExpr p i => simp [dropLaterPlainCounts, hpc2, summarizeReduceFold, ih b]
      | arrayExpr c cs => simp [dropLaterPlainCounts, hpc2, summarizeReduceFold, ih b]
      | reduceExpr p r params =>
        cases params with
        | some ps => simp [dropLaterPlainCounts, hpc2, summarizeReduceFold, ih b]
        | none =>
          have hc : (r.name == "count") = false := by
            simpa [isPlainCountReduce] using hpc2
          by_cases hn : r.name = "none"
          · simp [dropLaterPlainCounts, hpc2, summarizeReduceFold, hc, hn, ih b]
          · simp [dropLaterPlainCounts, hpc2, summarizeReduceFold, hc,
              bne_iff_ne.mpr hn, ih b]

/-- C9 counterexample: a reduce list with more than one reduction named
`count`, each carrying a parameter list, produces two `count(Value, 'x')`
aggregation terms and no bare `count()` at all — the deduplication does not
apply, and the second `count` reduction does contribute a term. -/
theorem count_dedup_counterexample :
    (summarizeReduceFold [] ⟨none, none⟩ sampleParamCounts false).1 =
      ["count(Value, 'x')", "count(Value, 'x')"] ∧
    (summarizeReduceFold [] ⟨none, none⟩ sampleParamCounts false).1.count "count()" = 0 ∧
    appendSummarize [] ⟨none, none⟩ none ⟨.and, sampleParamCounts⟩ ⟨.and, []⟩ =
      ["summarize count(Value, 'x'), count(Value, 'x')"] := by
  exact ⟨by rfl, by decide, by rfl⟩

/-- C9 (amended): for every reduce list containing more than one
parameterless reduction named `count`, the summarize aggregation list
contains the term `count()` exactly once, contributed by the first such
reduction; dropping every later parameterless `count` reduction leaves the
aggregation list unchanged, so they contribute no term. -/
theorem count_dedup (tv : List String) (ctx : ParseContext)
    (es : List QueryEditorExpression) (h : 2 ≤ es.countP isPlainCountReduce) :
    (summarizeReduceFold tv ctx es false).1.count "count()" = 1 ∧
    (summarizeReduceFold tv ctx (dropLaterPlainCounts es false) false).1 =
      (summarizeReduceFold tv ctx es false).1 := by
  constructor
  · rw [summarize_count_occurrences]
    have hany : es.any isPlainCountReduce = true := by
      rw [List.any_eq_true]
      obtain ⟨a, ha, hpa⟩ := List.countP_pos_iff.mp (show 0 < es.countP isPlainCountReduce by omega)
      exact ⟨a, ha, hpa⟩
    simp [hany]
  · exact summarize_drop_later_counts tv ctx es false

/-- Witness for C9 (amended): three reductions, two of them parameterless
`count`, one `sum` in between. -/
theorem count_dedup_witness :
    2 ≤ ([.reduceExpr ⟨"A", .number⟩ ⟨"count", .function⟩ none,
          .reduceExpr ⟨"B", .number⟩ ⟨"sum", .function⟩ none,
          .reduceExpr ⟨"C", .number⟩ ⟨"count", .function⟩ none] :
            List QueryEditorExpression).countP isPlainCountReduce ∧
    (summarizeReduceFold [] ⟨none, none⟩
        [.reduceExpr ⟨"A", .number⟩ ⟨"count", .function⟩ none,
         .reduceExpr ⟨"B", .number⟩ ⟨"sum", .function⟩ none,
         .reduceExpr ⟨"C", .number⟩ ⟨"count", .function⟩ none] false).1.count "count()" = 1 ∧
    (summarizeReduceFold [] ⟨none, none⟩
        (dropLaterPlainCounts
          [.reduceExpr ⟨"A", .number⟩ ⟨"count", .function⟩ none,
           .reduceExpr ⟨"B", .number⟩ ⟨"sum", .function⟩ none,
           .reduceExpr ⟨"C", .number⟩ ⟨"count", .function⟩ none] false) false).1 =
      (summarizeReduceFold [] ⟨none, none⟩
        [.reduceExpr ⟨"A", .number⟩ ⟨"count", .function⟩ none,
         .reduceExpr ⟨"B", .number⟩ ⟨"sum", .function⟩ none,
         .reduceExpr ⟨"C", .number⟩ ⟨"count", .function⟩ none] false).1 := by
  have h := count_dedup [] ⟨none, none⟩
    [.reduceExpr ⟨"A", .number⟩ ⟨"count", .function⟩ none,
     .reduceExpr ⟨"B", .number⟩ ⟨"sum", .function⟩ none,
     .reduceExpr ⟨"C", .number⟩ ⟨"count", .function⟩ none] (by decide)
  exact ⟨by decide, h.1, h.2⟩

/-- Appending nodes whose children lie at or above `n` preserves region
closedness. -/
theorem regionClosed_append (n : Nat) (h ext : Heap) (hcl : regionClosed n h)
    (hext : ∀ nd ∈ ext, ∀ c ∈ nodeChildren nd, n ≤ c) : regionClosed n (h ++ ext) := by
  intro i nd hi hget
  rw [List.getElem?_append] at hget
  by_cases hlt : i < h.length
  · rw [if_pos hlt] at hget
    exact hcl i nd hi hget
  · rw [if_neg hlt] at hget
    exact hext nd (List.getElem?_mem hget)

/-- The deep clone never touches existing cells, only allocates: the old
heap is preserved pointwise, the returned address is fresh, and every
address reachable inside the cloned region stays at or above the old heap
size. -/
theorem cloneDeepH_spec (n : Nat) : ∀ fuel : Nat,
    (∀ (h : Heap) (a : Nat) (h1 : Heap) (b : Nat),
      n ≤ h.length → regionClosed n h → cloneDeepH fuel h a = some (h1, b) →
      (∀ i, i < h.length → h1[i]? = h[i]?) ∧ h.length ≤ h1.length ∧
        h.length ≤ b ∧ regionClosed n h1) ∧
    (∀ (h : Heap) (l : List Nat) (h1 : Heap) (bs : List Nat),
      n ≤ h.length → regionClosed n h → cloneListH fuel h l = some (h1, bs) →
      (∀ i, i < h.length → h1[i]? = h[i]?) ∧ h.length ≤ h1.length ∧
        (∀ b ∈ bs, h.length ≤ b) ∧ regionClosed n h1) := by
  intro fuel
  induction fuel with
  | zero =>
    constructor
    · intro h a h1 b _ _ hrun
      exact Option.noConfusion hrun
    · intro h l h1 bs hn hcl hrun
      cases l with
      | nil =>
        simp only [cloneListH, Option.some.injEq, Prod.mk.injEq] at hrun
        obtain ⟨rfl, rfl⟩ := hrun
        exact ⟨fun i _ => rfl, le_refl _, by simp, hcl⟩
      | cons a as => exact Option.noConfusion hrun
  | succ fuel ih =>
    constructor
    · intro h a h1 b hn hcl hrun
      simp only [cloneDeepH] at hrun
      split at hrun
      · exact Option.noConfusion hrun
      · rename_i x heq
        simp only [Option.some.injEq, Prod.mk.injEq] at hrun
        obtain ⟨rfl, rfl⟩ := hrun
        refine ⟨?_, by simp, le_refl _, ?_⟩
        · intro i hi
          rw [List.getElem?_append, if_pos hi]
        · refine regionClosed_append n h _ hcl ?_
          intro nd hnd c hc
          rw [List.mem_singleton] at hnd
          subst hnd
          exact absurd hc (by simp [nodeChildren])
      · rename_i c children heq
        split at hrun
        · exact Option.noConfusion hrun
        · rename_i pr h2 bs heq2
          simp only [Option.some.injEq, Prod.mk.injEq] at hrun
          obtain ⟨rfl, rfl⟩ := hrun
          obtain ⟨hpre, hlen, hbs, hcl2⟩ := ih.2 h children h2 bs hn hcl heq2
          refine ⟨?_, ?_, hlen, ?_⟩
          · intro i hi
            rw [List.getElem?_append, if_pos (lt_of_lt_of_le hi hlen), hpre i hi]
          · calc h.length ≤ h2.length := hlen
              _ ≤ (h2 ++ [HNode.arrayNode c bs]).length := by simp
          · refine regionClosed_append n h2 _ hcl2 ?_
            intro nd hnd cc hcc
            rw [List.mem_singleton] at hnd
            subst hnd
            simp only [nodeChildren] at hcc
            exact le_trans hn (hbs cc hcc)
    · intro h l h1 bs hn hcl hrun
      cases l with
      | nil =>
        simp only [cloneListH, Option.some.injEq, Prod.mk.injEq] at hrun
        obtain ⟨rfl, rfl⟩ := hrun
        exact ⟨fun i _ => rfl, le_refl _, by simp, hcl⟩
      | cons a as =>
        simp only [cloneListH] at hrun
        split at hrun
        · exact Option.noConfusion hrun
        · rename_i pr hA b heq
          split at hrun
          · exact Option.noConfusion hrun
          · rename_i pr2 h2 bs2 heq2
            simp only [Option.some.injEq, Prod.mk.injEq] at hrun
            obtain ⟨rfl, rfl⟩ := hrun
            obtain ⟨hpre1, hlen1, hb1, hcl1⟩ := ih.1 h a hA b hn hcl heq
            obtain ⟨hpre2, hlen2, hb2, hcl2⟩ :=
              ih.2 hA as h2 bs2 (le_trans hn hlen1) hcl1 heq2
            refine ⟨?_, le_trans hlen1 hlen2, ?_, hcl2⟩
            · intro i hi
              rw [hpre2 i (lt_of_lt_of_le hi hlen1), hpre1 i hi]
            · intro x hx
              rcases List.mem_cons.mp hx with rfl | hx2
              · exact hb1
              · exact le_trans hlen1 (hb2 x hx2)

/-- The splice walk starting inside a region closed at `n` only ever writes
at addresses at or above `n`: every cell below `n` is preserved. -/
theorem spliceWalk_frame (opAddr n : Nat) :
    ∀ (keys : List Nat) (h : Heap) (cur : Nat),
      regionClosed n h → n ≤ cur →
      ∀ i, i < n → (spliceWalk opAddr h cur keys)[i]? = h[i]? := by
  intro keys
  induction keys with
  | nil => intro h cur _ _ i _; rfl
  | cons k rest ih =>
    intro h cur hcl hcur i hi
    cases rest with
    | nil =>
      simp only [spliceWalk]
      split
      · exact List.getElem?_set_ne (by omega)
      · rfl
    | cons k2 rest2 =>
      simp only [spliceWalk]
      split
      · rename_i c children heq
        split
        · rename_i childAddr heq2
          split
          · rename_i c2 cs2 heq3
            have hchild : n ≤ childAddr :=
              hcl cur _ hcur heq (childAddr) (List.getElem?_mem heq2)
            exact ih h childAddr hcl hchild i hi
          · exact ih h cur hcl hcur i hi
        · exact ih h cur hcl hcur i hi
      · exact ih h cur hcl hcur i hi

/-- C3: `replaceByIndex` never mutates the caller's tree: after the
deep-clone-and-splice, every heap cell that existed before the call —
in particular every node of the input `where` tree — holds exactly the node
it held before; only freshly allocated clone cells differ. -/
theorem replaceByIndex_no_mutation (fuel : Nat) (h : Heap) (rootAddr : Nat)
    (keys : List Nat) (opAddr : Nat) (hOut : Heap) (cloneAddr : Nat)
    (hrun : replaceByIndexH fuel h rootAddr keys opAddr = some (hOut, cloneAddr)) :
    ∀ a, a < h.length → hOut[a]? = h[a]? := by
  unfold replaceByIndexH at hrun
  cases hc : cloneDeepH fuel h rootAddr with
  | none => rw [hc] at hrun; exact Option.noConfusion hrun
  | some pr =>
    obtain ⟨h1, b⟩ := pr
    rw [hc] at hrun
    simp only [Option.some.injEq, Prod.mk.injEq] at hrun
    obtain ⟨rfl, rfl⟩ := hrun
    have hclosed : regionClosed h.length h := by
      intro i nd hi hget
      rw [List.getElem?_eq_none hi] at hget
      exact Option.noConfusion hget
    obtain ⟨hpre, hlen, hb, hcl⟩ :=
      (cloneDeepH_spec h.length fuel).1 h rootAddr h1 b (le_refl _) hclosed hc
    intro a ha
    rw [spliceWalk_frame opAddr h.length keys h1 b hcl hb a ha]
    exact hpre a ha

/-- Witness for C3: splicing key path `[0]` into the clone of the two-node
heap leaves both original cells untouched. -/
theorem replaceByIndex_no_mutation_witness :
    replaceByIndexH 5 sampleHeap 0 [0] 1 = some (sampleHeapAfter, 3) ∧
    sampleHeapAfter[0]? = sampleHeap[0]? ∧ sampleHeapAfter[1]? = sampleHeap[1]? := by
  have h := replaceByIndex_no_mutation 5 sampleHeap 0 [0] 1 sampleHeapAfter 3 (by rfl)
  exact ⟨by rfl, h 0 (by decide), h 1 (by decide)⟩

end AdxCompiler
